import Mathlib

/-!
Verification of the ristretto255 scalar-field wrapper (`pkg/ristretto/scalar.go`).

The Go file wraps `filippo.io/edwards25519.Scalar`, whose semantics the spec
describes: residues modulo the prime `l = 2^252 + 27742317777372353535851937790883648493`,
with canonical 32-byte little-endian encodings. The backend operations are
modelled from the spec; the wrapper logic (length checks, clamping bit
twiddles, MultiplyAdd staging, base64 text adapter) is translated from the
Go source.
-/

/-- Modelled from the spec: the prime order of the ristretto255 group,
`l = 2^252 + 27742317777372353535851937790883648493`. -/
def l : ℕ := 2 ^ 252 + 27742317777372353535851937790883648493

theorem l_pos : 0 < l := by decide

theorem one_lt_l : 1 < l := by decide

instance : NeZero l := ⟨by decide⟩

instance : Fact (1 < l) := ⟨one_lt_l⟩

/-- Fuel-bounded modular exponentiation by repeated squaring; with enough fuel
it computes `a ^ e % n`. Used as the executable model of the fixed
exponentiation ladder that `edwards25519.Scalar.Invert` performs, and to check
the primality certificate of `l`. -/
def powMod : ℕ → ℕ → ℕ → ℕ → ℕ
  | 0, _, _, n => 1 % n
  | fuel + 1, a, e, n =>
    if e = 0 then 1 % n
    else if e % 2 = 0 then powMod fuel (a * a % n) (e / 2) n
    else powMod fuel (a * a % n) (e / 2) n * a % n

theorem powMod_eq (fuel : ℕ) : ∀ a e n : ℕ, 0 < n → e < 2 ^ fuel →
    powMod fuel a e n = a ^ e % n := by
  induction fuel with
  | zero =>
    intro a e n _ he
    interval_cases e
    simp [powMod]
  | succ fuel ih =>
    intro a e n hn he
    rw [powMod]
    by_cases he0 : e = 0
    · simp [he0]
    · rw [if_neg he0]
      have hdiv : e / 2 < 2 ^ fuel := by
        rw [Nat.div_lt_iff_lt_mul (by norm_num : 0 < 2)]
        calc e < 2 ^ (fuel + 1) := he
          _ = 2 ^ fuel * 2 := by rw [pow_succ]
      have hr : powMod fuel (a * a % n) (e / 2) n = (a * a) ^ (e / 2) % n := by
        rw [ih (a * a % n) (e / 2) n hn hdiv, ← Nat.pow_mod]
      have hsq : (a * a) ^ (e / 2) = a ^ (2 * (e / 2)) := by
        rw [← sq, ← pow_mul]
      by_cases he2 : e % 2 = 0
      · rw [if_pos he2, hr, hsq, show 2 * (e / 2) = e by omega]
      · rw [if_neg he2, hr, Nat.mod_mul_mod, hsq, ← pow_succ,
          show 2 * (e / 2) + 1 = e by omega]

theorem powMod_lt (fuel : ℕ) : ∀ a e n : ℕ, 0 < n → powMod fuel a e n < n := by
  induction fuel with
  | zero => intro a e n hn; exact Nat.mod_lt _ hn
  | succ fuel ih =>
    intro a e n hn
    rw [powMod]
    by_cases he0 : e = 0
    · rw [if_pos he0]; exact Nat.mod_lt _ hn
    · rw [if_neg he0]
      by_cases he2 : e % 2 = 0
      · rw [if_pos he2]; exact ih _ _ _ hn
      · rw [if_neg he2]; exact Nat.mod_lt _ hn

theorem zmod_pow_eq_one (p a : ℕ) (h1 : 1 < p) (he : p - 1 < 2 ^ 512)
    (h : powMod 512 a (p - 1) p = 1) : (a : ZMod p) ^ (p - 1) = 1 := by
  have hp : 0 < p := lt_trans one_pos h1
  have := powMod_eq 512 a (p - 1) p hp he
  rw [h] at this
  have hcast : ((a ^ (p - 1) % p : ℕ) : ZMod p) = ((1 : ℕ) : ZMod p) := by
    rw [← this]
  rw [ZMod.natCast_mod, Nat.cast_pow, Nat.cast_one] at hcast
  exact hcast

theorem zmod_pow_ne_one (p a e : ℕ) (h1 : 1 < p) (he : e < 2 ^ 512)
    (h : powMod 512 a e p ≠ 1) : (a : ZMod p) ^ e ≠ 1 := by
  have hp : 0 < p := lt_trans one_pos h1
  intro hcontra
  apply h
  rw [powMod_eq 512 a e p hp he]
  have : ((a ^ e % p : ℕ) : ZMod p) = ((1 : ℕ) : ZMod p) := by
    rw [ZMod.natCast_mod, Nat.cast_pow, Nat.cast_one, hcontra]
  have hlt : a ^ e % p < p := Nat.mod_lt _ hp
  have := congrArg ZMod.val this
  rwa [ZMod.val_cast_of_lt hlt, ZMod.val_cast_of_lt h1] at this

/-- Soundness of a Lucas primality certificate: if `qs` lists the prime factors
of `p - 1` with multiplicity and `a` has order `p - 1` modulo `p` (checked by
`powMod`), then `p` is prime. -/
theorem prime_of_lucasCert (p a : ℕ) (qs : List ℕ)
    (hqs : ∀ q ∈ qs, Nat.Prime q)
    (hprod : qs.prod = p - 1)
    (h1 : 1 < p) (hsz : p - 1 < 2 ^ 512)
    (hone : powMod 512 a (p - 1) p = 1)
    (hne : ∀ q ∈ qs, powMod 512 a ((p - 1) / q) p ≠ 1) : p.Prime := by
  apply lucas_primality p (a : ZMod p) (zmod_pow_eq_one p a h1 hsz hone)
  intro q hq hdvd
  have hmem : q ∈ qs := by
    rw [← hprod] at hdvd
    obtain ⟨b, hb, hqb⟩ := (hq.prime.dvd_prod_iff).mp hdvd
    have := ((Nat.prime_dvd_prime_iff_eq hq (hqs b hb)).mp hqb)
    rwa [this]
  have hesz : (p - 1) / q < 2 ^ 512 := lt_of_le_of_lt (Nat.div_le_self _ _) hsz
  exact zmod_pow_ne_one p a ((p - 1) / q) h1 hesz (hne q hmem)

set_option maxRecDepth 100000

theorem prime_2 : Nat.Prime 2 := by norm_num

theorem prime_3 : Nat.Prime 3 := by norm_num

theorem prime_5 : Nat.Prime 5 := by norm_num

theorem prime_7 : Nat.Prime 7 := by norm_num

theorem prime_11 : Nat.Prime 11 := by norm_num

theorem prime_23 : Nat.Prime 23 := by norm_num

theorem prime_41 : Nat.Prime 41 := by norm_num

theorem prime_43 : Nat.Prime 43 := by norm_num

theorem prime_73 : Nat.Prime 73 := by norm_num

theorem prime_269 : Nat.Prime 269 := by norm_num

theorem prime_307 : Nat.Prime 307 := by norm_num

theorem prime_1361 : Nat.Prime 1361 := by norm_num

theorem prime_2851 : Nat.Prime 2851 := by norm_num

theorem prime_5879 : Nat.Prime 5879 := by norm_num

theorem prime_30703 : Nat.Prime 30703 := by norm_num

theorem prime_82163 : Nat.Prime 82163 := by norm_num

theorem prime_132667 : Nat.Prime 132667 := by norm_num

theorem prime_137849 : Nat.Prime 137849 := by norm_num

theorem prime_409477 : Nat.Prime 409477 := by norm_num

theorem prime_531581 : Nat.Prime 531581 := by norm_num

theorem prime_1224481 : Nat.Prime 1224481 := by norm_num

theorem prime_14741173 : Nat.Prime 14741173 :=
  prime_of_lucasCert 14741173 2 [2, 2, 3, 3, 409477]
    (by intro q hq
        simp only [List.mem_cons, List.not_mem_nil, or_false] at hq
        rcases hq with rfl | rfl | rfl | rfl | rfl
        exacts [prime_2, prime_2, prime_3, prime_3, prime_409477])
    (by decide) (by decide) (by decide) (by decide) (by decide)

theorem prime_58964693 : Nat.Prime 58964693 :=
  prime_of_lucasCert 58964693 2 [2, 2, 14741173]
    (by intro q hq
        simp only [List.mem_cons, List.not_mem_nil, or_false] at hq
        rcases hq with rfl | rfl | rfl
        exacts [prime_2, prime_2, prime_14741173])
    (by decide) (by decide) (by decide) (by decide) (by decide)

theorem prime_3044861653679985063343 : Nat.Prime 3044861653679985063343 :=
  prime_of_lucasCert 3044861653679985063343 5 [2, 3, 11, 30703, 82163, 132667, 137849]
    (by intro q hq
        simp only [List.mem_cons, List.not_mem_nil, or_false] at hq
        rcases hq with rfl | rfl | rfl | rfl | rfl | rfl | rfl
        exacts [prime_2, prime_3, prime_11, prime_30703, prime_82163, prime_132667, prime_137849])
    (by decide) (by decide) (by decide) (by decide) (by decide)

theorem prime_1257559732178653 : Nat.Prime 1257559732178653 :=
  prime_of_lucasCert 1257559732178653 2 [2, 2, 3, 7, 23, 531581, 1224481]
    (by intro q hq
        simp only [List.mem_cons, List.not_mem_nil, or_false] at hq
        rcases hq with rfl | rfl | rfl | rfl | rfl | rfl | rfl
        exacts [prime_2, prime_2, prime_3, prime_7, prime_23, prime_531581, prime_1224481])
    (by decide) (by decide) (by decide) (by decide) (by decide)

theorem prime_4434155615661930479 : Nat.Prime 4434155615661930479 :=
  prime_of_lucasCert 4434155615661930479 17 [2, 41, 43, 1257559732178653]
    (by intro q hq
        simp only [List.mem_cons, List.not_mem_nil, or_false] at hq
        rcases hq with rfl | rfl | rfl | rfl
        exacts [prime_2, prime_41, prime_43, prime_1257559732178653])
    (by decide) (by decide) (by decide) (by decide) (by decide)

theorem prime_292386187 : Nat.Prime 292386187 :=
  prime_of_lucasCert 292386187 2 [2, 3, 3, 3, 3, 307, 5879]
    (by intro q hq
        simp only [List.mem_cons, List.not_mem_nil, or_false] at hq
        rcases hq with rfl | rfl | rfl | rfl | rfl | rfl | rfl
        exacts [prime_2, prime_3, prime_3, prime_3, prime_3, prime_307, prime_5879])
    (by decide) (by decide) (by decide) (by decide) (by decide)

theorem prime_172054593956031949258510691 : Nat.Prime 172054593956031949258510691 :=
  prime_of_lucasCert 172054593956031949258510691 2 [2, 5, 1361, 2851, 4434155615661930479]
    (by intro q hq
        simp only [List.mem_cons, List.not_mem_nil, or_false] at hq
        rcases hq with rfl | rfl | rfl | rfl | rfl
        exacts [prime_2, prime_5, prime_1361, prime_2851, prime_4434155615661930479])
    (by decide) (by decide) (by decide) (by decide) (by decide)

theorem prime_213441916511 : Nat.Prime 213441916511 :=
  prime_of_lucasCert 213441916511 13 [2, 5, 73, 292386187]
    (by intro q hq
        simp only [List.mem_cons, List.not_mem_nil, or_false] at hq
        rcases hq with rfl | rfl | rfl | rfl
        exacts [prime_2, prime_5, prime_73, prime_292386187])
    (by decide) (by decide) (by decide) (by decide) (by decide)

theorem prime_19757330305831588566944191468367130476339 : Nat.Prime 19757330305831588566944191468367130476339 :=
  prime_of_lucasCert 19757330305831588566944191468367130476339 2 [2, 269, 213441916511, 172054593956031949258510691]
    (by intro q hq
        simp only [List.mem_cons, List.not_mem_nil, or_false] at hq
        rcases hq with rfl | rfl | rfl | rfl
        exacts [prime_2, prime_269, prime_213441916511, prime_172054593956031949258510691])
    (by decide) (by decide) (by decide) (by decide) (by decide)

theorem prime_276602624281642239937218680557139826668747 : Nat.Prime 276602624281642239937218680557139826668747 :=
  prime_of_lucasCert 276602624281642239937218680557139826668747 2 [2, 7, 19757330305831588566944191468367130476339]
    (by intro q hq
        simp only [List.mem_cons, List.not_mem_nil, or_false] at hq
        rcases hq with rfl | rfl | rfl
        exacts [prime_2, prime_7, prime_19757330305831588566944191468367130476339])
    (by decide) (by decide) (by decide) (by decide) (by decide)

theorem prime_198211423230930754013084525763697 : Nat.Prime 198211423230930754013084525763697 :=
  prime_of_lucasCert 198211423230930754013084525763697 5 [2, 2, 2, 2, 3, 23, 58964693, 3044861653679985063343]
    (by intro q hq
        simp only [List.mem_cons, List.not_mem_nil, or_false] at hq
        rcases hq with rfl | rfl | rfl | rfl | rfl | rfl | rfl | rfl
        exacts [prime_2, prime_2, prime_2, prime_2, prime_3, prime_23, prime_58964693, prime_3044861653679985063343])
    (by decide) (by decide) (by decide) (by decide) (by decide)

/-- The group order `l` is prime, by a Lucas certificate with witness 2. -/
theorem l_prime : Nat.Prime l :=
  prime_of_lucasCert l 2 [2, 2, 3, 11, 198211423230930754013084525763697, 276602624281642239937218680557139826668747]
    (by intro q hq
        simp only [List.mem_cons, List.not_mem_nil, or_false] at hq
        rcases hq with rfl | rfl | rfl | rfl | rfl | rfl
        exacts [prime_2, prime_2, prime_3, prime_11, prime_198211423230930754013084525763697, prime_276602624281642239937218680557139826668747])
    (by decide) (by decide) (by decide) (by decide) (by decide)


/-- Little-endian byte string of length `k` encoding `n` (mod `2 ^ (8 * k)`). -/
def leBytes : ℕ → ℕ → List ℕ
  | 0, _ => []
  | k + 1, n => n % 256 :: leBytes k (n / 256)

/-- The integer value of a little-endian byte string. -/
def leNat : List ℕ → ℕ
  | [] => 0
  | b :: rest => b + 256 * leNat rest

theorem leBytes_length (k : ℕ) : ∀ n : ℕ, (leBytes k n).length = k := by
  induction k with
  | zero => intro n; rfl
  | succ k ih => intro n; simp [leBytes, ih]

theorem leBytes_mem_lt (k : ℕ) : ∀ n : ℕ, ∀ c ∈ leBytes k n, c < 256 := by
  induction k with
  | zero => intro n c hc; simp [leBytes] at hc
  | succ k ih =>
    intro n c hc
    rcases List.mem_cons.mp hc with rfl | hc
    · exact Nat.mod_lt _ (by norm_num)
    · exact ih _ c hc

theorem leNat_leBytes (k : ℕ) : ∀ n : ℕ, leNat (leBytes k n) = n % 256 ^ k := by
  induction k with
  | zero => intro n; simp [leBytes, leNat, Nat.mod_one]
  | succ k ih =>
    intro n
    rw [leBytes, leNat, ih (n / 256), pow_succ, mul_comm (256 ^ k) 256, Nat.mod_mul]

theorem leBytes_leNat : ∀ b : List ℕ, (∀ c ∈ b, c < 256) →
    leBytes b.length (leNat b) = b := by
  intro b
  induction b with
  | nil => intro _; rfl
  | cons c rest ih =>
    intro hb
    have hc : c < 256 := hb c (List.mem_cons_self c rest)
    have hrest := ih (fun d hd => hb d (List.mem_cons_of_mem c hd))
    simp only [List.length_cons, leBytes, leNat]
    rw [show (c + 256 * leNat rest) % 256 = c by omega,
      show (c + 256 * leNat rest) / 256 = leNat rest by omega, hrest]

theorem leNat_lt : ∀ b : List ℕ, (∀ c ∈ b, c < 256) → leNat b < 256 ^ b.length := by
  intro b
  induction b with
  | nil => intro _; simp [leNat]
  | cons c rest ih =>
    intro hb
    have hc : c < 256 := hb c (List.mem_cons_self c rest)
    have hrest := ih (fun d hd => hb d (List.mem_cons_of_mem c hd))
    simp only [leNat, List.length_cons, pow_succ]
    omega

/-- Modelled from the spec: a `Scalar` (the `ristretto255.Scalar` wrapper around
`edwards25519.Scalar`) is conceptually an unsigned integer in `[0, l)`; the
backend maintains exactly this reduction invariant, so the model carries it in
the type. The field is named `s` after the Go struct field. -/
structure Scalar where
  s : ℕ
  s_lt : s < l

theorem Scalar.ext {x y : Scalar} (h : x.s = y.s) : x = y := by
  cases x; cases y; simp only at h; subst h; rfl

/-- Function `NewScalar` returns a `Scalar` set to the value 0. -/
def NewScalar : Scalar := ⟨0, l_pos⟩

namespace Scalar

/-- The residue a scalar denotes, as an element of the field `ZMod l`. -/
def toZ (x : Scalar) : ZMod l := (x.s : ZMod l)

/-- Method `Set` sets the value of `s` to `x` and returns `s` (value level). -/
def Set (_s x : Scalar) : Scalar := x

/-- Modelled from the spec: `Add` sets `s = x + y mod l`, canonically reduced. -/
def Add (x y : Scalar) : Scalar := ⟨(x.s + y.s) % l, Nat.mod_lt _ l_pos⟩

/-- Modelled from the spec: `Subtract` sets `s = x - y mod l`, canonically reduced. -/
def Subtract (x y : Scalar) : Scalar := ⟨(x.s + (l - y.s)) % l, Nat.mod_lt _ l_pos⟩

/-- Modelled from the spec: `Negate` sets `s = -x mod l`, canonically reduced. -/
def Negate (x : Scalar) : Scalar := ⟨(l - x.s) % l, Nat.mod_lt _ l_pos⟩

/-- Modelled from the spec: `Multiply` sets `s = x * y mod l`, canonically reduced. -/
def Multiply (x y : Scalar) : Scalar := ⟨x.s * y.s % l, Nat.mod_lt _ l_pos⟩

/-- Method `MultiplyAdd` at value level: `s = x * y + z mod l`, via `Multiply` then `Add`
exactly as the Go code composes them. -/
def MultiplyAdd (x y z : Scalar) : Scalar := (Multiply x y).Add z

/-- Modelled from the spec: `Invert` computes the inverse by Fermat
exponentiation `x ^ (l - 2) mod l`, the recommended fixed exponentiation
ladder; on 0 the result is whatever the ladder produces. -/
def Invert (x : Scalar) : Scalar := ⟨powMod 512 x.s (l - 2) l, powMod_lt 512 _ _ _ l_pos⟩

/-- Method `Zero` sets `s = 0` and returns `s`. -/
def Zero (_s : Scalar) : Scalar := ⟨0, l_pos⟩

/-- Modelled from the spec: `Bytes` returns the 32-byte little-endian canonical
encoding of `s`. -/
def Bytes (x : Scalar) : List ℕ := leBytes 32 x.s

/-- Modelled from the spec: `Equal` returns 1 if the canonical encodings agree
and 0 otherwise (the backend compares encodings in constant time). -/
def Equal (x u : Scalar) : ℕ := if x.Bytes = u.Bytes then 1 else 0

/-- Method `Encode` appends the 32-byte little-endian encoding of `s` to `b`. -/
def Encode (x : Scalar) (b : List ℕ) : List ℕ := b ++ leBytes 32 x.s

end Scalar

/-- The error kinds of the decode family, as the spec classifies them. -/
inductive ScalarError where
  | lengthError
  | canonicalityError
  | textDecodeError
deriving DecidableEq

/-- Modelled from the spec: `SetCanonicalBytes` requires exactly 32 bytes whose
little-endian value is `< l`; on failure the receiver is unchanged and no
scalar is returned. The pair is (receiver state after the call, result). -/
def Scalar.SetCanonicalBytes (s : Scalar) (x : List ℕ) : Scalar × Except ScalarError Unit :=
  if x.length ≠ 32 then (s, .error .lengthError)
  else if h : leNat x < l then (⟨leNat x, h⟩, .ok ())
  else (s, .error .canonicalityError)

/-- Modelled from the spec: `SetUniformBytes` requires exactly 64 bytes, read
as a 512-bit little-endian integer and reduced mod `l`; on failure the
receiver is unchanged and no scalar is returned. -/
def Scalar.SetUniformBytes (s : Scalar) (x : List ℕ) : Scalar × Except ScalarError Unit :=
  if x.length = 64 then (⟨leNat x % l, Nat.mod_lt _ l_pos⟩, .ok ())
  else (s, .error .lengthError)

/-- Method `SetBytesWithClamping`, translated from the Go source: check the length is
32, zero-extend into a 64-byte buffer, clear the low 3 bits of byte 0, clear
the top 2 bits and set bit 6 of byte 31, then defer to `SetUniformBytes`. -/
def Scalar.SetBytesWithClamping (s : Scalar) (x : List ℕ) : Scalar × Except ScalarError Unit :=
  if x.length ≠ 32 then (s, .error .lengthError)
  else
    let wide := x ++ List.replicate 32 0
    let wide1 := wide.set 0 (wide.getD 0 0 &&& 248)
    let wide2 := wide1.set 31 ((wide1.getD 31 0 &&& 63) ||| 64)
    s.SetUniformBytes wide2

/-- Method `Decode` (a deprecated alias), translated from the Go source: forwards to
`SetCanonicalBytes` and reports only its error. -/
def Scalar.Decode (s : Scalar) (x : List ℕ) : Scalar × Except ScalarError Unit :=
  s.SetCanonicalBytes x

/-- Modelled from the spec: the standard (padded) base64 alphabet
`A-Z a-z 0-9 + /`, as character codes. -/
def b64chars : List ℕ :=
  [65, 66, 67, 68, 69, 70, 71, 72, 73, 74, 75, 76, 77, 78, 79, 80, 81, 82,
   83, 84, 85, 86, 87, 88, 89, 90,
   97, 98, 99, 100, 101, 102, 103, 104, 105, 106, 107, 108, 109, 110, 111,
   112, 113, 114, 115, 116, 117, 118, 119, 120, 121, 122,
   48, 49, 50, 51, 52, 53, 54, 55, 56, 57, 43, 47]

/-- The alphabet character for a 6-bit group. -/
def b64c (i : ℕ) : ℕ := b64chars.getD i 0

/-- The 6-bit group for an alphabet character, if it is one (61 is `=`). -/
def b64index (c : ℕ) : Option ℕ := b64chars.indexOf? c

/-- Modelled from the spec: standard padded base64 encoding of a byte string,
three bytes to four characters, `=`-padded final group. -/
def b64encode : List ℕ → List ℕ
  | [] => []
  | [b0] => [b64c (b0 / 4), b64c (b0 % 4 * 16), 61, 61]
  | [b0, b1] => [b64c (b0 / 4), b64c (b0 % 4 * 16 + b1 / 16), b64c (b1 % 16 * 4), 61]
  | b0 :: b1 :: b2 :: rest =>
      b64c (b0 / 4) :: b64c (b0 % 4 * 16 + b1 / 16) :: b64c (b1 % 16 * 4 + b2 / 64) ::
        b64c (b2 % 64) :: b64encode rest

/-- Modelled from the spec: standard padded base64 decoding; fails on any text
that is not well-formed padded base64. -/
def b64decode : List ℕ → Option (List ℕ)
  | [] => some []
  | c0 :: c1 :: c2 :: c3 :: rest =>
      match b64index c0, b64index c1 with
      | some i0, some i1 =>
        if c2 = 61 then
          if c3 = 61 ∧ rest = [] then some [i0 * 4 + i1 / 16] else none
        else
          match b64index c2 with
          | some i2 =>
            if c3 = 61 then
              if rest = [] then some [i0 * 4 + i1 / 16, i1 % 16 * 16 + i2 / 4] else none
            else
              match b64index c3 with
              | some i3 =>
                match b64decode rest with
                | some tail =>
                    some ((i0 * 4 + i1 / 16) :: (i1 % 16 * 16 + i2 / 4) ::
                      (i2 % 4 * 64 + i3) :: tail)
                | none => none
              | none => none
          | none => none
      | _, _ => none
  | _ => none

theorem b64index_b64c : ∀ i < 64, b64index (b64c i) = some i := by decide

theorem b64c_ne_eq : ∀ i < 64, b64c i ≠ 61 := by decide

theorem b64decode_encode : ∀ b : List ℕ, (∀ c ∈ b, c < 256) →
    b64decode (b64encode b) = some b
  | [], _ => by rfl
  | [b0], hb => by
      have h0 : b0 < 256 := hb b0 (by simp)
      have e0 : b64index (b64c (b0 / 4)) = some (b0 / 4) := b64index_b64c _ (by omega)
      have e1 : b64index (b64c (b0 % 4 * 16)) = some (b0 % 4 * 16) :=
        b64index_b64c _ (by omega)
      simp [b64encode, b64decode, e0, e1]
      omega
  | [b0, b1], hb => by
      have h0 : b0 < 256 := hb b0 (by simp)
      have h1 : b1 < 256 := hb b1 (by simp)
      have e0 : b64index (b64c (b0 / 4)) = some (b0 / 4) := b64index_b64c _ (by omega)
      have e1 : b64index (b64c (b0 % 4 * 16 + b1 / 16)) = some (b0 % 4 * 16 + b1 / 16) :=
        b64index_b64c _ (by omega)
      have e2 : b64index (b64c (b1 % 16 * 4)) = some (b1 % 16 * 4) :=
        b64index_b64c _ (by omega)
      have n2 : b64c (b1 % 16 * 4) ≠ 61 := b64c_ne_eq _ (by omega)
      simp [b64encode, b64decode, e0, e1, e2, n2]
      omega
  | [b0, b1, b2], hb => by
      have h0 : b0 < 256 := hb b0 (by simp)
      have h1 : b1 < 256 := hb b1 (by simp)
      have h2 : b2 < 256 := hb b2 (by simp)
      have e0 : b64index (b64c (b0 / 4)) = some (b0 / 4) := b64index_b64c _ (by omega)
      have e1 : b64index (b64c (b0 % 4 * 16 + b1 / 16)) = some (b0 % 4 * 16 + b1 / 16) :=
        b64index_b64c _ (by omega)
      have e2 : b64index (b64c (b1 % 16 * 4 + b2 / 64)) = some (b1 % 16 * 4 + b2 / 64) :=
        b64index_b64c _ (by omega)
      have e3 : b64index (b64c (b2 % 64)) = some (b2 % 64) := b64index_b64c _ (by omega)
      have n2 : b64c (b1 % 16 * 4 + b2 / 64) ≠ 61 := b64c_ne_eq _ (by omega)
      have n3 : b64c (b2 % 64) ≠ 61 := b64c_ne_eq _ (by omega)
      simp [b64encode, b64decode, e0, e1, e2, e3, n2, n3]
      omega
  | b0 :: b1 :: b2 :: r3 :: rest, hb => by
      have h0 : b0 < 256 := hb b0 (by simp)
      have h1 : b1 < 256 := hb b1 (by simp)
      have h2 : b2 < 256 := hb b2 (by simp)
      have ih := b64decode_encode (r3 :: rest)
        (fun d hd => hb d (by simp only [List.mem_cons] at hd ⊢; tauto))
      have e0 : b64index (b64c (b0 / 4)) = some (b0 / 4) := b64index_b64c _ (by omega)
      have e1 : b64index (b64c (b0 % 4 * 16 + b1 / 16)) = some (b0 % 4 * 16 + b1 / 16) :=
        b64index_b64c _ (by omega)
      have e2 : b64index (b64c (b1 % 16 * 4 + b2 / 64)) = some (b1 % 16 * 4 + b2 / 64) :=
        b64index_b64c _ (by omega)
      have e3 : b64index (b64c (b2 % 64)) = some (b2 % 64) := b64index_b64c _ (by omega)
      have n2 : b64c (b1 % 16 * 4 + b2 / 64) ≠ 61 := b64c_ne_eq _ (by omega)
      have n3 : b64c (b2 % 64) ≠ 61 := b64c_ne_eq _ (by omega)
      simp [b64encode, b64decode, e0, e1, e2, e3, n2, n3, ih]
      refine ⟨by omega, by omega, by omega⟩

/-- Method `MarshalText`, translated from the Go source: base64-encode `Encode`
applied to an empty buffer; it always succeeds. -/
def Scalar.MarshalText (s : Scalar) : List ℕ := b64encode (s.Encode [])

/-- Method `UnmarshalText`, translated from the Go source: base64-decode the text and,
when that succeeds, forward to `Decode`; on a base64 error the receiver is
unchanged. -/
def Scalar.UnmarshalText (s : Scalar) (text : List ℕ) : Scalar × Except ScalarError Unit :=
  match b64decode text with
  | some sb => s.Decode sb
  | none => (s, .error .textDecodeError)

/-- Pointer-level model of `MultiplyAdd`, translated line by line from the Go
source: scalars live in a heap addressed by pointers, `zCopy` is read before
the destination is written, then `Multiply` writes the destination, then `Add`
reads it back and adds the staged copy. -/
def heapMultiplyAdd (h : ℕ → Scalar) (sp xp yp zp : ℕ) : ℕ → Scalar :=
  let zCopy := h zp
  let h1 := Function.update h sp (Scalar.Multiply (h xp) (h yp))
  Function.update h1 sp (Scalar.Add (h1 sp) zCopy)

/-- Pointer-level model of `Set`, translated from the Go source: `*s = *x`,
returning the receiver pointer. -/
def heapSet (h : ℕ → Scalar) (sp xp : ℕ) : (ℕ → Scalar) × ℕ :=
  (Function.update h sp (h xp), sp)

theorem l_lt_byte32 : l < 256 ^ 32 := by decide

theorem leNat_bytes_eq (x : Scalar) : leNat x.Bytes = x.s := by
  rw [Scalar.Bytes, leNat_leBytes]
  exact Nat.mod_eq_of_lt (lt_trans x.s_lt l_lt_byte32)

/-- C4: `Add`, `Subtract`, `Negate` and `Multiply` are total (no precondition,
no error) and return the sum, difference, negation and product mod `l`,
canonically reduced into `[0, l)` (the reduced representative is the unique
value below `l` with the stated residue, and `s_lt` gives the range). -/
theorem c4_arithmetic_total_and_correct :
    (∀ x y : Scalar, (x.Add y).s < l ∧ ((x.Add y).s : ZMod l) = x.toZ + y.toZ) ∧
    (∀ x y : Scalar, (x.Subtract y).s < l ∧ ((x.Subtract y).s : ZMod l) = x.toZ - y.toZ) ∧
    (∀ x : Scalar, x.Negate.s < l ∧ ((x.Negate.s : ℕ) : ZMod l) = -x.toZ) ∧
    (∀ x y : Scalar, (x.Multiply y).s < l ∧ ((x.Multiply y).s : ZMod l) = x.toZ * y.toZ) := by
  refine ⟨fun x y => ⟨(x.Add y).s_lt, ?_⟩, fun x y => ⟨(x.Subtract y).s_lt, ?_⟩,
    fun x => ⟨x.Negate.s_lt, ?_⟩, fun x y => ⟨(x.Multiply y).s_lt, ?_⟩⟩
  · show (((x.s + y.s) % l : ℕ) : ZMod l) = _
    rw [ZMod.natCast_mod, Nat.cast_add]; rfl
  · show (((x.s + (l - y.s)) % l : ℕ) : ZMod l) = _
    rw [ZMod.natCast_mod, Nat.cast_add, Nat.cast_sub (le_of_lt y.s_lt),
      ZMod.natCast_self]
    show (x.s : ZMod l) + (0 - (y.s : ZMod l)) = (x.s : ZMod l) - (y.s : ZMod l)
    ring
  · show (((l - x.s) % l : ℕ) : ZMod l) = _
    rw [ZMod.natCast_mod, Nat.cast_sub (le_of_lt x.s_lt), ZMod.natCast_self]
    show (0 : ZMod l) - (x.s : ZMod l) = -(x.s : ZMod l)
    ring
  · show ((x.s * y.s % l : ℕ) : ZMod l) = _
    rw [ZMod.natCast_mod, Nat.cast_mul]; rfl

/-- C2: `SetCanonicalBytes` rejects any input that is not exactly 32 bytes
with a length error, rejects 32-byte non-canonical encodings (value `≥ l`,
in particular the encodings of `l` and `l + 1`) with a canonicality error,
leaving the receiver unchanged in both cases, and otherwise sets the receiver
to the encoded residue. -/
theorem c2_setCanonicalBytes_checks :
    (∀ s : Scalar, ∀ x : List ℕ, x.length ≠ 32 →
      s.SetCanonicalBytes x = (s, .error .lengthError)) ∧
    (∀ s : Scalar, ∀ x : List ℕ, x.length = 32 → l ≤ leNat x →
      s.SetCanonicalBytes x = (s, .error .canonicalityError)) ∧
    (∀ s : Scalar, ∀ x : List ℕ, x.length = 32 → (h : leNat x < l) →
      s.SetCanonicalBytes x = (⟨leNat x, h⟩, .ok ())) ∧
    (∀ s : Scalar, s.SetCanonicalBytes (leBytes 32 l) = (s, .error .canonicalityError)) ∧
    (∀ s : Scalar, s.SetCanonicalBytes (leBytes 32 (l + 1)) = (s, .error .canonicalityError)) := by
  have hcore : ∀ s : Scalar, ∀ x : List ℕ, x.length = 32 → l ≤ leNat x →
      s.SetCanonicalBytes x = (s, .error .canonicalityError) := by
    intro s x hlen hge
    rw [Scalar.SetCanonicalBytes, if_neg (by omega), dif_neg (by omega)]
  refine ⟨?_, hcore, ?_, ?_, ?_⟩
  · intro s x hlen
    rw [Scalar.SetCanonicalBytes, if_pos hlen]
  · intro s x hlen h
    rw [Scalar.SetCanonicalBytes, if_neg (by omega), dif_pos h]
  · intro s
    refine hcore s _ (leBytes_length 32 l) ?_
    rw [leNat_leBytes]
    decide
  · intro s
    refine hcore s _ (leBytes_length 32 (l + 1)) ?_
    rw [leNat_leBytes]
    decide

/-- Witness for C2 at concrete inputs: a 1-byte input gets a length error. -/
theorem c2_setCanonicalBytes_checks_witness :
    NewScalar.SetCanonicalBytes [0] = (NewScalar, .error .lengthError) :=
  c2_setCanonicalBytes_checks.1 NewScalar [0] (by decide)

/-- C3: `SetUniformBytes` on exactly 64 bytes reduces the little-endian value
mod `l` (64 zero bytes give 0, the encoding of `l` gives 0, the encoding of
`l + 5` gives 5); on any other length it fails and leaves the receiver
unchanged. -/
theorem c3_setUniformBytes_wide_reduction :
    (∀ s : Scalar, ∀ x : List ℕ, x.length = 64 →
      s.SetUniformBytes x = (⟨leNat x % l, Nat.mod_lt _ l_pos⟩, .ok ())) ∧
    (∀ s : Scalar, ∀ x : List ℕ, x.length ≠ 64 →
      s.SetUniformBytes x = (s, .error .lengthError)) ∧
    (∀ s : Scalar, (s.SetUniformBytes (List.replicate 64 0)).1.s = 0 ∧
      (s.SetUniformBytes (List.replicate 64 0)).2 = .ok ()) ∧
    (∀ s : Scalar, (s.SetUniformBytes (leBytes 64 l)).1.s = 0 ∧
      (s.SetUniformBytes (leBytes 64 l)).2 = .ok ()) ∧
    (∀ s : Scalar, (s.SetUniformBytes (leBytes 64 (l + 5))).1.s = 5 ∧
      (s.SetUniformBytes (leBytes 64 (l + 5))).2 = .ok ()) := by
  have hok : ∀ s : Scalar, ∀ x : List ℕ, x.length = 64 →
      s.SetUniformBytes x = (⟨leNat x % l, Nat.mod_lt _ l_pos⟩, .ok ()) := by
    intro s x hlen
    rw [Scalar.SetUniformBytes, if_pos hlen]
  refine ⟨hok, ?_, ?_, ?_, ?_⟩
  · intro s x hlen
    rw [Scalar.SetUniformBytes, if_neg hlen]
  · intro s
    rw [hok s _ (by decide)]
    exact ⟨by decide, rfl⟩
  · intro s
    rw [hok s _ (leBytes_length 64 l)]
    refine ⟨?_, rfl⟩
    show leNat (leBytes 64 l) % l = 0
    rw [leNat_leBytes]
    decide
  · intro s
    rw [hok s _ (leBytes_length 64 (l + 5))]
    refine ⟨?_, rfl⟩
    show leNat (leBytes 64 (l + 5)) % l = 5
    rw [leNat_leBytes]
    decide

/-- Witness for C3 at a concrete input: a 63-byte input gets a length error. -/
theorem c3_setUniformBytes_wide_reduction_witness :
    NewScalar.SetUniformBytes (List.replicate 63 0) = (NewScalar, .error .lengthError) :=
  c3_setUniformBytes_wide_reduction.2.1 NewScalar (List.replicate 63 0) (by decide)

/-- C5: for every canonical 32-byte string (value `< l`), `SetCanonicalBytes`
then `Bytes` returns exactly the input bytes. -/
theorem c5_decode_encode_roundtrip (s : Scalar) (b : List ℕ) (hlen : b.length = 32)
    (hbytes : ∀ c ∈ b, c < 256) (hlt : leNat b < l) :
    (s.SetCanonicalBytes b).2 = .ok () ∧ ((s.SetCanonicalBytes b).1).Bytes = b := by
  rw [Scalar.SetCanonicalBytes, if_neg (by omega), dif_pos hlt]
  refine ⟨rfl, ?_⟩
  show leBytes 32 (leNat b) = b
  rw [← hlen]
  exact leBytes_leNat b hbytes

/-- Witness for C5 at a concrete input: 32 zero bytes round-trip. -/
theorem c5_decode_encode_roundtrip_witness :
    (NewScalar.SetCanonicalBytes (List.replicate 32 0)).2 = .ok () ∧
    ((NewScalar.SetCanonicalBytes (List.replicate 32 0)).1).Bytes = List.replicate 32 0 :=
  c5_decode_encode_roundtrip NewScalar (List.replicate 32 0) (by decide)
    (by decide) (by decide)

/-- The clamped wide buffer as C6 words it: copy the 32 input bytes into a
64-byte zero-initialized buffer, AND byte 0 with 248, AND byte 31 with 63 and
OR it with 64. -/
def clampSpec (x : List ℕ) : List ℕ :=
  (List.range 64).map fun i =>
    if i = 0 then x.getD 0 0 &&& 248
    else if i = 31 then (x.getD 31 0 &&& 63) ||| 64
    else x.getD i 0

theorem clampWide_eq (x : List ℕ) (hlen : x.length = 32) :
    ((x ++ List.replicate 32 0).set 0 ((x ++ List.replicate 32 0).getD 0 0 &&& 248)).set 31
      ((((x ++ List.replicate 32 0).set 0
        ((x ++ List.replicate 32 0).getD 0 0 &&& 248)).getD 31 0 &&& 63) ||| 64)
      = clampSpec x := by
  have hwlen : (x ++ List.replicate 32 0).length = 64 := by simp [hlen]
  have hgapp : ∀ j (hj : j < (x ++ List.replicate 32 0).length),
      (x ++ List.replicate 32 0)[j] = if j < 32 then x.getD j 0 else 0 := by
    intro j hj
    rw [hwlen] at hj
    by_cases hj32 : j < 32
    · rw [if_pos hj32, List.getElem_append_left (by omega),
        List.getD_eq_getElem _ _ (by omega)]
    · rw [if_neg hj32, List.getElem_append_right (by omega)]
      exact List.getElem_replicate _ _
  have hv0 : (x ++ List.replicate 32 0).getD 0 0 = x.getD 0 0 := by
    rw [@List.getD_eq_getElem ℕ (x ++ List.replicate 32 0) 0 0 (by omega),
      hgapp 0 (by omega), if_pos (by omega)]
  apply List.ext_getElem
  · simp [clampSpec, hlen]
  · intro i h1 h2
    have hi : i < 64 := by simpa [clampSpec] using h2
    have hv31 : ((x ++ List.replicate 32 0).set 0
        (x.getD 0 0 &&& 248)).getD 31 0 = x.getD 31 0 := by
      rw [@List.getD_eq_getElem ℕ _ 0 31 (by simp [hwlen]), List.getElem_set,
        if_neg (by omega), hgapp 31 (by omega), if_pos (by omega)]
    simp only [clampSpec, List.getElem_map, List.getElem_range]
    rw [List.getElem_set, List.getElem_set]
    simp only [hv0, hv31]
    by_cases hi31 : i = 31
    · rw [if_pos (by omega), if_neg (by omega), if_pos hi31]
    · rw [if_neg (by omega)]
      by_cases hi0 : i = 0
      · rw [if_pos (by omega), if_pos hi0]
      · rw [if_neg (by omega), if_neg hi0, if_neg hi31, hgapp i (by omega)]
        by_cases hi32 : i < 32
        · rw [if_pos hi32]
        · rw [if_neg hi32, List.getD_eq_default _ _ (by omega)]

/-- C6: on a 32-byte input, `SetBytesWithClamping` equals `SetUniformBytes`
applied to the 64-byte zero-extended buffer with byte 0 ANDed with 248 and
byte 31 ANDed with 63 then ORed with 64, and it succeeds; on any other length
it fails with a length error and the receiver is unchanged. -/
theorem c6_setBytesWithClamping_algorithm :
    (∀ s : Scalar, ∀ x : List ℕ, x.length = 32 →
      s.SetBytesWithClamping x = s.SetUniformBytes (clampSpec x) ∧
      (s.SetBytesWithClamping x).2 = .ok ()) ∧
    (∀ s : Scalar, ∀ x : List ℕ, x.length ≠ 32 →
      s.SetBytesWithClamping x = (s, .error .lengthError)) := by
  constructor
  · intro s x hlen
    have hchain : s.SetBytesWithClamping x = s.SetUniformBytes (clampSpec x) := by
      rw [Scalar.SetBytesWithClamping, if_neg (by omega)]
      show s.SetUniformBytes
        (((x ++ List.replicate 32 0).set 0 ((x ++ List.replicate 32 0).getD 0 0 &&& 248)).set 31
          ((((x ++ List.replicate 32 0).set 0
            ((x ++ List.replicate 32 0).getD 0 0 &&& 248)).getD 31 0 &&& 63) ||| 64))
        = s.SetUniformBytes (clampSpec x)
      rw [clampWide_eq x hlen]
    refine ⟨hchain, ?_⟩
    rw [hchain, Scalar.SetUniformBytes, if_pos (by simp [clampSpec])]
  · intro s x hlen
    rw [Scalar.SetBytesWithClamping, if_pos hlen]

/-- Witness for C6 at a concrete input: clamping 32 zero bytes succeeds. -/
theorem c6_setBytesWithClamping_algorithm_witness :
    (NewScalar.SetBytesWithClamping (List.replicate 32 0)).2 = .ok () :=
  (c6_setBytesWithClamping_algorithm.1 NewScalar (List.replicate 32 0) (by decide)).2

instance : Fact (Nat.Prime l) := ⟨l_prime⟩

/-- C7: for every scalar `x` that is not the zero residue,
`Multiply(x, Invert(x))` is the residue 1 (nothing is claimed about
`Invert` at zero). -/
theorem c7_invert_mul_one (x : Scalar) (hx : x.s ≠ 0) :
    (x.Multiply x.Invert).s = 1 := by
  have hinv : x.Invert.s = x.s ^ (l - 2) % l := by
    show powMod 512 x.s (l - 2) l = _
    exact powMod_eq 512 x.s (l - 2) l l_pos (by decide)
  show x.s * x.Invert.s % l = 1
  rw [hinv, mul_comm, Nat.mod_mul_mod, ← pow_succ,
    show l - 2 + 1 = l - 1 by have := one_lt_l; omega]
  have hz : (x.s : ZMod l) ≠ 0 := by
    intro h0
    apply hx
    have := congrArg ZMod.val h0
    rwa [ZMod.val_cast_of_lt x.s_lt, ZMod.val_zero] at this
  have hfermat : ((x.s ^ (l - 1) : ℕ) : ZMod l) = 1 := by
    rw [Nat.cast_pow]
    exact ZMod.pow_card_sub_one_eq_one hz
  have := congrArg ZMod.val hfermat
  rwa [ZMod.val_natCast, ZMod.val_one l] at this

/-- Witness for C7 at a concrete input: the inverse of 2 multiplies to 1. -/
theorem c7_invert_mul_one_witness :
    (Scalar.Multiply ⟨2, by decide⟩ (Scalar.Invert ⟨2, by decide⟩)).s = 1 :=
  c7_invert_mul_one ⟨2, by decide⟩ (by decide)

/-- C8: for every heap and every aliasing pattern of the destination with any
of the three operand pointers (all coincidences allowed), `MultiplyAdd` leaves
`x * y + z mod l` at the destination — the same value as computing into a
fresh temporary — and every other location is untouched. -/
theorem c8_multiplyAdd_aliasing (h : ℕ → Scalar) (sp xp yp zp : ℕ) :
    heapMultiplyAdd h sp xp yp zp sp = Scalar.Add (Scalar.Multiply (h xp) (h yp)) (h zp) ∧
    ∀ p, p ≠ sp → heapMultiplyAdd h sp xp yp zp p = h p := by
  constructor
  · unfold heapMultiplyAdd
    simp only [Function.update_same]
  · intro p hp
    unfold heapMultiplyAdd
    simp only [Function.update_noteq hp]

/-- Witness for C8 with every pointer aliased to the destination. -/
theorem c8_multiplyAdd_aliasing_witness :
    heapMultiplyAdd (fun _ => (⟨3, by decide⟩ : Scalar)) 0 0 0 0 0 =
      Scalar.Add (Scalar.Multiply ⟨3, by decide⟩ ⟨3, by decide⟩) ⟨3, by decide⟩ ∧
    heapMultiplyAdd (fun _ => (⟨3, by decide⟩ : Scalar)) 0 0 0 0 1 = ⟨3, by decide⟩ :=
  ⟨(c8_multiplyAdd_aliasing (fun _ => (⟨3, by decide⟩ : Scalar)) 0 0 0 0).1,
    (c8_multiplyAdd_aliasing (fun _ => (⟨3, by decide⟩ : Scalar)) 0 0 0 0).2 1 (by decide)⟩

/-- C10: `Set` always succeeds, makes the destination hold exactly the source
residue (`Equal` returns 1 and the encodings agree afterwards), returns the
receiver pointer, and every location other than the destination — in
particular the source when distinct — is untouched. `sp = xp` is allowed. -/
theorem c10_set_aliasing (h : ℕ → Scalar) (sp xp : ℕ) :
    (heapSet h sp xp).1 sp = h xp ∧
    ((heapSet h sp xp).1 sp).Equal ((heapSet h sp xp).1 xp) = 1 ∧
    ((heapSet h sp xp).1 sp).Bytes = ((heapSet h sp xp).1 xp).Bytes ∧
    (heapSet h sp xp).2 = sp ∧
    (∀ p, p ≠ sp → (heapSet h sp xp).1 p = h p) := by
  have hsp : (heapSet h sp xp).1 sp = h xp := by
    show Function.update h sp (h xp) sp = h xp
    rw [Function.update_same]
  have hxp : (heapSet h sp xp).1 xp = h xp := by
    by_cases hx : xp = sp
    · subst hx; exact hsp
    · show Function.update h sp (h xp) xp = h xp
      rw [Function.update_noteq hx]
  refine ⟨hsp, ?_, ?_, rfl, ?_⟩
  · rw [hsp, hxp, Scalar.Equal, if_pos rfl]
  · rw [hsp, hxp]
  · intro p hp
    show Function.update h sp (h xp) p = h p
    rw [Function.update_noteq hp]

/-- Witness for C10 at concrete pointers, the aliased case included. -/
theorem c10_set_aliasing_witness :
    (heapSet (fun _ => NewScalar) 0 0).1 0 = NewScalar ∧
    (heapSet (fun _ => NewScalar) 0 0).1 1 = NewScalar :=
  ⟨(c10_set_aliasing (fun _ => NewScalar) 0 0).1,
    (c10_set_aliasing (fun _ => NewScalar) 0 0).2.2.2.2 1 (by decide)⟩

/-- C9: `MarshalText` is the padded standard base64 of the canonical 32-byte
encoding; `UnmarshalText` of that text restores an equal scalar; and
`UnmarshalText` fails leaving the receiver unchanged on invalid base64, on
decoded strings that are not 32 bytes, and on 32-byte decodes with value
`≥ l`. -/
theorem c9_text_adapter :
    (∀ s : Scalar, s.MarshalText = b64encode (leBytes 32 s.s)) ∧
    (∀ s x : Scalar, s.UnmarshalText x.MarshalText = (x, .ok ())) ∧
    (∀ s : Scalar, ∀ t : List ℕ, b64decode t = none →
      s.UnmarshalText t = (s, .error .textDecodeError)) ∧
    (∀ s : Scalar, ∀ t sb : List ℕ, b64decode t = some sb → sb.length ≠ 32 →
      s.UnmarshalText t = (s, .error .lengthError)) ∧
    (∀ s : Scalar, ∀ t sb : List ℕ, b64decode t = some sb → sb.length = 32 →
      l ≤ leNat sb → s.UnmarshalText t = (s, .error .canonicalityError)) := by
  have hu : ∀ s : Scalar, ∀ t sb : List ℕ, b64decode t = some sb →
      s.UnmarshalText t = s.Decode sb := by
    intro s t sb hd
    rw [Scalar.UnmarshalText, hd]
  refine ⟨fun s => rfl, ?_, ?_, ?_, ?_⟩
  · intro s x
    rw [hu s x.MarshalText (leBytes 32 x.s)
      (b64decode_encode (leBytes 32 x.s) (leBytes_mem_lt 32 x.s))]
    have hlen32 := leBytes_length 32 x.s
    have hval : leNat (leBytes 32 x.s) = x.s := leNat_bytes_eq x
    have hlt : leNat (leBytes 32 x.s) < l := by rw [hval]; exact x.s_lt
    rw [Scalar.Decode, Scalar.SetCanonicalBytes, if_neg (by omega), dif_pos hlt,
      show (⟨leNat (leBytes 32 x.s), hlt⟩ : Scalar) = x from Scalar.ext hval]
  · intro s t hnone
    rw [Scalar.UnmarshalText, hnone]
  · intro s t sb hd hlen
    rw [hu s t sb hd, Scalar.Decode, Scalar.SetCanonicalBytes, if_pos hlen]
  · intro s t sb hd hlen hge
    rw [hu s t sb hd, Scalar.Decode, Scalar.SetCanonicalBytes, if_neg (by omega),
      dif_neg (by omega)]

/-- Witness for C9 at concrete inputs: the round trip on the zero scalar, and
a text-decode failure on a 1-character text. -/
theorem c9_text_adapter_witness :
    NewScalar.UnmarshalText NewScalar.MarshalText = (NewScalar, .ok ()) ∧
    NewScalar.UnmarshalText [0] = (NewScalar, .error .textDecodeError) :=
  ⟨c9_text_adapter.2.1 NewScalar NewScalar,
    c9_text_adapter.2.2.1 NewScalar [0] (by decide)⟩

theorem Scalar.add_toZ (x y : Scalar) : (x.Add y).toZ = x.toZ + y.toZ := by
  show (((x.s + y.s) % l : ℕ) : ZMod l) = _
  rw [ZMod.natCast_mod, Nat.cast_add]; rfl

theorem Scalar.sub_toZ (x y : Scalar) : (x.Subtract y).toZ = x.toZ - y.toZ := by
  show (((x.s + (l - y.s)) % l : ℕ) : ZMod l) = _
  rw [ZMod.natCast_mod, Nat.cast_add, Nat.cast_sub (le_of_lt y.s_lt), ZMod.natCast_self]
  show (x.s : ZMod l) + (0 - (y.s : ZMod l)) = (x.s : ZMod l) - (y.s : ZMod l)
  ring

theorem Scalar.neg_toZ (x : Scalar) : x.Negate.toZ = -x.toZ := by
  show (((l - x.s) % l : ℕ) : ZMod l) = _
  rw [ZMod.natCast_mod, Nat.cast_sub (le_of_lt x.s_lt), ZMod.natCast_self]
  show (0 : ZMod l) - (x.s : ZMod l) = -(x.s : ZMod l)
  ring

theorem Scalar.mul_toZ (x y : Scalar) : (x.Multiply y).toZ = x.toZ * y.toZ := by
  show ((x.s * y.s % l : ℕ) : ZMod l) = _
  rw [ZMod.natCast_mod, Nat.cast_mul]; rfl

theorem Scalar.invert_toZ (x : Scalar) (hx : x.toZ ≠ 0) : x.Invert.toZ = x.toZ⁻¹ := by
  have hinv : x.Invert.s = x.s ^ (l - 2) % l := by
    show powMod 512 x.s (l - 2) l = _
    exact powMod_eq 512 x.s (l - 2) l l_pos (by decide)
  have hcast : x.Invert.toZ = x.toZ ^ (l - 2) := by
    show ((x.Invert.s : ℕ) : ZMod l) = _
    rw [hinv, ZMod.natCast_mod, Nat.cast_pow]; rfl
  have hone : x.toZ * x.Invert.toZ = 1 := by
    rw [hcast, ← pow_succ', show l - 2 + 1 = l - 1 by have := one_lt_l; omega]
    exact ZMod.pow_card_sub_one_eq_one hx
  rw [hcast]
  rw [← hcast]
  exact eq_inv_of_mul_eq_one_right hone

theorem setUniformBytes_ok_toZ (s : Scalar) (b : List ℕ)
    (hok : (s.SetUniformBytes b).2 = .ok ()) :
    ((s.SetUniformBytes b).1).toZ = (leNat b : ZMod l) := by
  by_cases hlen : b.length = 64
  · rw [Scalar.SetUniformBytes, if_pos hlen]
    show ((leNat b % l : ℕ) : ZMod l) = _
    rw [ZMod.natCast_mod]
  · rw [Scalar.SetUniformBytes, if_neg hlen] at hok
    exact absurd hok (by simp)

theorem setBytesWithClamping_eq (s : Scalar) (x : List ℕ) (hlen : x.length = 32) :
    s.SetBytesWithClamping x = s.SetUniformBytes (clampSpec x) := by
  rw [Scalar.SetBytesWithClamping, if_neg (by omega)]
  show s.SetUniformBytes
    (((x ++ List.replicate 32 0).set 0 ((x ++ List.replicate 32 0).getD 0 0 &&& 248)).set 31
      ((((x ++ List.replicate 32 0).set 0
        ((x ++ List.replicate 32 0).getD 0 0 &&& 248)).getD 31 0 &&& 63) ||| 64))
    = s.SetUniformBytes (clampSpec x)
  rw [clampWide_eq x hlen]

/-- C1: every public operation produces the mathematically correct residue
mod `l` (the value carried is always in `[0, l)` by `s_lt`), `Bytes` is the
32-byte little-endian encoding of that value, and the encoding is a bijection
between residues and canonical byte strings: equal residues have equal
encodings and distinct residues have distinct encodings. -/
theorem c1_residue_invariant :
    (∀ x y : Scalar, (x.Add y).toZ = x.toZ + y.toZ) ∧
    (∀ x y : Scalar, (x.Subtract y).toZ = x.toZ - y.toZ) ∧
    (∀ x : Scalar, x.Negate.toZ = -x.toZ) ∧
    (∀ x y : Scalar, (x.Multiply y).toZ = x.toZ * y.toZ) ∧
    (∀ x y z : Scalar, (Scalar.MultiplyAdd x y z).toZ = x.toZ * y.toZ + z.toZ) ∧
    (∀ s x : Scalar, (s.Set x).toZ = x.toZ) ∧
    NewScalar.toZ = 0 ∧
    (∀ s : Scalar, (s.Zero).toZ = 0) ∧
    (∀ x : Scalar, x.toZ ≠ 0 → x.Invert.toZ = x.toZ⁻¹) ∧
    (∀ s : Scalar, ∀ b : List ℕ, (s.SetUniformBytes b).2 = .ok () →
      ((s.SetUniformBytes b).1).toZ = (leNat b : ZMod l)) ∧
    (∀ s : Scalar, ∀ b : List ℕ, (s.SetCanonicalBytes b).2 = .ok () →
      ((s.SetCanonicalBytes b).1).toZ = (leNat b : ZMod l)) ∧
    (∀ s : Scalar, ∀ b : List ℕ, (s.SetBytesWithClamping b).2 = .ok () →
      ((s.SetBytesWithClamping b).1).toZ = (leNat (clampSpec b) : ZMod l)) ∧
    (∀ x : Scalar, x.Bytes.length = 32 ∧ leNat x.Bytes = x.s ∧ x.s < l) ∧
    (∀ x y : Scalar, x.Bytes = y.Bytes ↔ x = y) := by
  refine ⟨Scalar.add_toZ, Scalar.sub_toZ, Scalar.neg_toZ, Scalar.mul_toZ,
    ?_, fun s x => rfl, ?_, ?_, Scalar.invert_toZ, setUniformBytes_ok_toZ, ?_, ?_, ?_, ?_⟩
  · intro x y z
    rw [Scalar.MultiplyAdd, Scalar.add_toZ, Scalar.mul_toZ]
  · show ((0 : ℕ) : ZMod l) = 0
    exact Nat.cast_zero
  · intro s
    show ((0 : ℕ) : ZMod l) = 0
    exact Nat.cast_zero
  · intro s b hok
    by_cases hlen : b.length ≠ 32
    · rw [Scalar.SetCanonicalBytes, if_pos hlen] at hok
      exact absurd hok (by simp)
    · by_cases hcan : leNat b < l
      · rw [Scalar.SetCanonicalBytes, if_neg hlen, dif_pos hcan]
        rfl
      · rw [Scalar.SetCanonicalBytes, if_neg hlen, dif_neg hcan] at hok
        exact absurd hok (by simp)
  · intro s b hok
    by_cases hlen : b.length = 32
    · rw [setBytesWithClamping_eq s b hlen] at hok ⊢
      exact setUniformBytes_ok_toZ s (clampSpec b) hok
    · rw [Scalar.SetBytesWithClamping, if_pos hlen] at hok
      exact absurd hok (by simp)
  · intro x
    exact ⟨leBytes_length 32 x.s, leNat_bytes_eq x, x.s_lt⟩
  · intro x y
    constructor
    · intro hb
      have := congrArg leNat hb
      rw [leNat_bytes_eq, leNat_bytes_eq] at this
      exact Scalar.ext this
    · intro hxy
      rw [hxy]

/-- Witness for the conditional conjuncts of C1: the inverse of the residue 3. -/
theorem c1_residue_invariant_witness :
    (Scalar.Invert ⟨3, by decide⟩).toZ = (Scalar.toZ ⟨3, by decide⟩)⁻¹ ∧
    (NewScalar.SetUniformBytes (List.replicate 64 1)).1.toZ =
      (leNat (List.replicate 64 1) : ZMod l) :=
  ⟨c1_residue_invariant.2.2.2.2.2.2.2.2.1 ⟨3, by decide⟩
      (by intro h0
          have h0c : ((3 : ℕ) : ZMod l) = 0 := h0
          have := congrArg ZMod.val h0c
          rw [ZMod.val_cast_of_lt (by decide : (3 : ℕ) < l), ZMod.val_zero] at this
          exact absurd this (by decide)),
    c1_residue_invariant.2.2.2.2.2.2.2.2.2.1 NewScalar (List.replicate 64 1)
      (by rw [Scalar.SetUniformBytes, if_pos (by decide)])⟩
